import Mathlib

/-!
Verification of the line-caching wrapper in `src/preprocess/cache_main.cc`.

Lines and strings are modelled as lists of bytes (`List Nat`), the child
program as a function from one input line to one output line, and the two
workers (`Input`, `Output`) as functions producing explicit event traces.
The handle passed through the queue (a pointer `&cache[fingerprint]` to the
`std::unordered_map` slot of a fingerprint) is modelled by the fingerprint
itself: the map holds exactly one stable slot per key, so slots are in
bijection with fingerprints.
-/

namespace Preprocess

/-- A byte string (a line with its trailing newline already stripped). -/
abbrev Line := List Nat

/-! ### Field splitting (`Input`, cache_main.cc lines 90–98)

`std::string::find(sep)` followed by `substr`/`erase`.  `findSub sep s` is
the least index at which `sep` occurs as a contiguous substring of `s`
(`std::string::npos` becomes `none`); for the empty separator it returns 0,
exactly as `std::string::find` does. -/

def findSub (sep : Line) : Line → Option Nat
  | [] => if sep.isPrefixOf [] then some 0 else none
  | b :: t => if sep.isPrefixOf (b :: t) then some 0 else (findSub sep t).map (· + 1)

/-- One iteration of the `while ((pos = s.find(sep)) != npos)` loop: the
field `s.substr(0, pos)` together with the remainder after
`s.erase(0, pos + sep.length())`; `none` when `find` fails and the loop
exits. -/
def splitStep (sep s : Line) : Option (Line × Line) :=
  (findSub sep s).map (fun pos => (s.take pos, s.drop (pos + sep.length)))

/-- The splitting loop, with explicit fuel so that the non-terminating case
(empty separator, claim C10) is representable: `none` means the fuel ran out
before the loop exited. The final `columns.push_back(s)` is the `[s]` in the
exit case. -/
def splitFuel (sep : Line) : Nat → Line → Option (List Line)
  | 0, _ => none
  | Nat.succ fuel, s =>
    match splitStep sep s with
    | none => some [s]
    | some (tok, rest) => (splitFuel sep fuel rest).map (tok :: ·)

/-- The field splitting performed per input line.  `s.length + 1` fuel is
enough whenever the separator is non-empty (proved below); the `getD`
default is unreachable in that case. -/
def split (sep s : Line) : List Line := (splitFuel sep (s.length + 1) s).getD [s]

/-! ### MurmurHash

Modelled from the spec: `util/murmur_hash.hh` (`util::MurmurHashNative`) is
not part of `src/`; §4.1 requires the hash to be bit-exact with
MurmurHash64A, the 64-bit native variant, and the wrapper calls it with the
default seed 0.  Bytes of a block are combined little-endian, machine
integers are `Nat` reduced modulo `2^64`. -/

def m64 : Nat := 0xc6a4a7935bd1e995

def mask64 (x : Nat) : Nat := x % 18446744073709551616

/-- Little-endian value of a byte list (first byte least significant). -/
def toLE (bs : Line) : Nat := bs.foldr (fun b acc => b + 256 * acc) 0

/-- One 8-byte block: `k *= m; k ^= k >> 47; k *= m; h ^= k; h *= m`. -/
def murmurRound (h k : Nat) : Nat :=
  let k1 := mask64 (k * m64)
  let k2 := k1 ^^^ (k1 >>> 47)
  let k3 := mask64 (k2 * m64)
  mask64 ((h ^^^ k3) * m64)

/-- Tail bytes (fewer than 8) and the final avalanche:
`h ^= tail (LE); h *= m` when the tail is non-empty, then
`h ^= h >> 47; h *= m; h ^= h >> 47`. -/
def murmurTail (h : Nat) (rest : Line) : Nat :=
  let h1 :=
    match rest with
    | [] => h
    | _ :: _ => mask64 ((h ^^^ toLE rest) * m64)
  let h2 := h1 ^^^ (h1 >>> 47)
  let h3 := mask64 (h2 * m64)
  h3 ^^^ (h3 >>> 47)

def murmurLoop (h : Nat) : Line → Nat
  | b0 :: b1 :: b2 :: b3 :: b4 :: b5 :: b6 :: b7 :: rest =>
    murmurLoop (murmurRound h (toLE [b0, b1, b2, b3, b4, b5, b6, b7])) rest
  | rest => murmurTail h rest

def MurmurHash64A (bs : Line) (seed : Nat) : Nat :=
  murmurLoop (mask64 (seed ^^^ mask64 (bs.length * m64))) bs

/-- The function `util::MurmurHashNative(data, size)` with its default seed 0. -/
def MurmurHashNative (bs : Line) : Nat := MurmurHash64A bs 0

/-! ### The fingerprint policy (`Input`, cache_main.cc lines 99–120) -/

/-- The constant `std::numeric_limits<int>::max()`, the initial value of `min`. -/
def intMax : Int := 2147483647

/-- Minimum over the parsed `--key` columns, initialised to `INT_MAX`. -/
def keyMin (keys : List Int) : Int := keys.foldl min intMax

/-- Maximum over the parsed `--key` columns, initialised to 0. -/
def keyMax (keys : List Int) : Int := keys.foldl max 0

/-- The concatenation `hash_string += columns.at(i-1)` over the requested columns in the
user-given order, no delimiter. -/
def selectCols (keys : List Int) (cols : List Line) : Line :=
  keys.foldl (fun acc i => acc ++ cols.getD (i - 1).toNat []) []

/-- The per-line fingerprint: the whole line when
`columns.size() < max || min <= 0`, otherwise the concatenated requested
columns (cache_main.cc lines 110–120). -/
def fingerprint (keys : List Int) (sep l : Line) : Nat :=
  if ((split sep l).length : Int) < keyMax keys ∨ keyMin keys ≤ 0 then MurmurHashNative l
  else MurmurHashNative (selectCols keys (split sep l))

/-- The fingerprint policy as worded by claim C3 / spec §4.1: first the
degenerate-key test (`max = 0` or `min ≤ 0`), then the split, then the
requested columns when enough fields are present, else the full line.
Stated separately from `fingerprint` so that agreement with the source
ordering of tests is a theorem, not a definition. -/
def fingerprintSpec (keys : List Int) (sep l : Line) : Nat :=
  if keyMax keys = 0 ∨ keyMin keys ≤ 0 then MurmurHashNative l
  else if keyMax keys ≤ ((split sep l).length : Int) then
    MurmurHashNative (selectCols keys (split sep l))
  else MurmurHashNative l

/-! ### `--key` parsing (`Input`, cache_main.cc lines 69–84)

The comma-splitting loop is the same `find`/`erase` pattern with the
one-byte separator `","` (byte 44); each token goes through `std::stoi`. -/

/-- Modelled from the C++ standard library: `std::stoi` skips leading
whitespace, accepts an optional sign, requires at least one digit (else it
throws `std::invalid_argument`, here `none`), parses the maximal digit run,
and throws `std::out_of_range` (here also `none`) outside `int` range. -/
def stoi (bs : Line) : Option Int :=
  let bs1 := bs.dropWhile (fun b => b == 32 || b == 9 || b == 10 || b == 11 || b == 12 || b == 13)
  let sgn : Int :=
    match bs1 with
    | 45 :: _ => -1
    | _ => 1
  let bs2 :=
    match bs1 with
    | 45 :: r => r
    | 43 :: r => r
    | r => r
  let ds := bs2.takeWhile (fun b => 48 ≤ b && b ≤ 57)
  if ds.isEmpty then none
  else
    let v : Int := sgn * (ds.foldl (fun acc d => acc * 10 + (d - 48)) 0 : Nat)
    if v < -2147483648 ∨ intMax < v then none else some v

/-- Parsing `options.key`: split on `','` and `stoi` every token; the first
failing token aborts (uncaught exception). -/
def parseKey (key : Line) : Option (List Int) := (split [44] key).mapM stoi

/-! ### The Input worker (cache_main.cc lines 86–142)

`Input` is modelled as the trace of its externally visible actions, per
input line and in program order: for a novel fingerprint it first writes
the line (plus `'\n'`) to the child's stdin (`process << l << '\n'`) and
then enqueues the handle (`queue.Produce`); for a seen fingerprint it only
enqueues.  After the loop it closes the child's stdin
(`process_input.reset()`) and then enqueues the poison entry.  `seen` is
the key set of the `std::unordered_map` cache, into which `Input` is the
only inserter. -/

inductive InEvent
  | send (l : Line)
  | enq (f : Nat)
  | closeStdin
  | sentinel
  deriving DecidableEq

def inputRun (fp : Line → Nat) : List Line → List Nat → List InEvent
  | [], _ => [InEvent.closeStdin, InEvent.sentinel]
  | l :: ls, seen =>
    if fp l ∈ seen then InEvent.enq (fp l) :: inputRun fp ls seen
    else InEvent.send l :: InEvent.enq (fp l) :: inputRun fp ls (fp l :: seen)

/-- The queue contents produced by a trace, in order (poison excluded). -/
def queueOf : List InEvent → List Nat
  | [] => []
  | InEvent.enq f :: tr => f :: queueOf tr
  | _ :: tr => queueOf tr

/-- The lines forwarded to the child's stdin by a trace, in order. -/
def sentOf : List InEvent → List Line
  | [] => []
  | InEvent.send l :: tr => l :: sentOf tr
  | _ :: tr => sentOf tr

/-! ### The Output worker (cache_main.cc lines 144–164)

`Output` consumes queue entries until the poison entry.  Its visible
actions: reading one line from the child's stdout (`in.ReadLine()`),
installing the copied bytes into the absent slot, and writing the slot's
bytes plus `'\n'` to downstream stdout (`out << value << '\n'`).  The
slot store is a function from fingerprints (slot identities) to
`Option Line` (`none` = `value.data() == NULL`, absent).  `rs` is the list
of lines the child will produce on its stdout, in order; `none` overall
means `ReadLine` hit end-of-file while a slot was still absent (fatal
`EndOfFileException`). -/

inductive OutEvent
  | readChild (r : Line)
  | install (f : Nat) (r : Line)
  | emit (bs : Line)
  deriving DecidableEq

def outputRun : List Nat → List Line → (Nat → Option Line) → Option (List OutEvent)
  | [], _, _ => some []
  | f :: q, rs, c =>
    match c f with
    | some v => (outputRun q rs c).map (fun tr => OutEvent.emit (v ++ [10]) :: tr)
    | none =>
      match rs with
      | [] => none
      | r :: rs' =>
        (outputRun q rs' (fun g => if g == f then some r else c g)).map
          (fun tr =>
            OutEvent.readChild r :: OutEvent.install f r :: OutEvent.emit (r ++ [10]) :: tr)

/-- The byte strings written to downstream stdout, in order. -/
def emitsOf : List OutEvent → List Line
  | [] => []
  | OutEvent.emit bs :: tr => bs :: emitsOf tr
  | _ :: tr => emitsOf tr

/-- The lines read from the child's stdout, in order. -/
def readsOf : List OutEvent → List Line
  | [] => []
  | OutEvent.readChild r :: tr => r :: readsOf tr
  | _ :: tr => readsOf tr

/-- The absent-to-present slot installations, in order. -/
def installsOf : List OutEvent → List (Nat × Line)
  | [] => []
  | OutEvent.install f r :: tr => (f, r) :: installsOf tr
  | _ :: tr => installsOf tr

/-! ### The whole wrapper (cache_main.cc `main`, lines 178–216)

A child obeying the one-line-in/one-line-out contract is a function
`child : Line → Line`; it answers exactly the lines `Input` forwarded, in
order.  Both workers start from the empty cache created in `main`. -/

def wrapperRun (keys : List Int) (sep : Line) (child : Line → Line)
    (lines : List Line) : Option (List OutEvent) :=
  let tr := inputRun (fingerprint keys sep) lines []
  outputRun (queueOf tr) ((sentOf tr).map child) (fun _ => none)

/-- The wrapper's downstream stdout, as a list of emitted byte strings
(each carries its terminating newline byte 10). -/
def wrapperOutput (keys : List Int) (sep : Line) (child : Line → Line)
    (lines : List Line) : Option (List Line) :=
  (wrapperRun keys sep child lines).map emitsOf

/-! ### Specification-side description of the cache semantics

`cacheSpec` is the sequential reference function: one pass over the input,
a map `m` from fingerprints to the output line cached for them. -/

def cacheSpec (fp : Line → Nat) (child : Line → Line) :
    List Line → (Nat → Option Line) → List Line
  | [], _ => []
  | l :: ls, m =>
    match m (fp l) with
    | some v => v :: cacheSpec fp child ls m
    | none => child l :: cacheSpec fp child ls (fun g => if g == fp l then some (child l) else m g)

/-- The cache map determined by a processing history `hs`: a fingerprint
maps to the child's answer for the first line of `hs` carrying it. -/
def mOf (fp : Line → Nat) (child : Line → Line) (hs : List Line) : Nat → Option Line :=
  fun f => (hs.find? (fun l => fp l == f)).map child

/-! ### Argument partitioning (cache_main.cc lines 182–200)

`main` pre-scans `argv[1]` and (when `argc > 3`) `argv[3]` for its own
option names; the prefix of that length is handed to
`boost::program_options`, the rest becomes the child's argv
(`Launch(argv + skip_args, ...)`, which `execvp`s its first element). -/

def isCacheOpt (s : String) : Bool :=
  s == "-k" || s == "-t" || s == "--key" || s == "--field_separator"

def skipArgs (argv : List String) : Nat :=
  (if isCacheOpt (argv.getD 1 "") then 3 else 1) +
    (if argv.length > 3 && isCacheOpt (argv.getD 3 "") then 2 else 0)

/-- The argv vector passed to `Launch` (the child's argv; its head is the
executable name given to `execvp`). -/
def childArgv (argv : List String) : List String := argv.drop (skipArgs argv)

/-- The argv prefix the wrapper parses for itself. -/
def wrapperArgv (argv : List String) : List String := argv.take (skipArgs argv)

/-! ### Exit status mapping (cache_main.cc lines 209–215)

Modelled from POSIX `sys/wait.h` (not part of `src/`): a normal exit with
code `c` is reported as status `(c & 0xff) << 8`, a signal termination as
the signal number in the low 7 bits; `WIFEXITED(s)` is `(s & 0x7f) == 0`
and `WEXITSTATUS(s)` is `(s >> 8) & 0xff`. -/

def WIFEXITED (status : Nat) : Bool := status % 128 == 0

def WEXITSTATUS (status : Nat) : Nat := (status / 256) % 256

/-- The value `main` returns after `waitpid`:
`WIFEXITED(status) ? WEXITSTATUS(status) : 256`. -/
def wrapperExitCode (status : Nat) : Nat :=
  if WIFEXITED status then WEXITSTATUS status else 256

/-- The wait status of a child that exited normally with `code`. -/
def exitStatusOf (code : Nat) : Nat := (code % 256) * 256

/-- The wait status of a child terminated by signal `sig` (1–127). -/
def signalStatusOf (sig : Nat) : Nat := sig % 128

/-! ### Startup ordering (cache_main.cc `main` lines 196–207, `Input` 69–86)

`main` spawns the child (`Launch`, line 200) and only then starts the
`Input` thread (line 206); `Input` parses `options.key` with `std::stoi`
(lines 72–84) before its line loop (line 86).  A failing `stoi` raises an
uncaught exception in the thread, terminating the process. -/

inductive RunEvent
  | spawnChild
  | fatalKeyParse
  | readLine (l : Line)
  deriving DecidableEq

def mainTrace (key : Line) (lines : List Line) : List RunEvent :=
  RunEvent.spawnChild ::
    (match parseKey key with
     | none => [RunEvent.fatalKeyParse]
     | some _ => lines.map RunEvent.readLine)

/-! ## Helper lemmas: termination of the splitting loop -/

theorem isPrefixOf_length_le : ∀ p s : Line, p.isPrefixOf s = true → p.length ≤ s.length
  | [], _, _ => Nat.zero_le _
  | _ :: _, [], h => by simp [List.isPrefixOf] at h
  | a :: p, b :: s, h => by
    simp only [List.isPrefixOf, Bool.and_eq_true] at h
    simpa [List.length_cons] using Nat.succ_le_succ (isPrefixOf_length_le p s h.2)

theorem findSub_bound (sep : Line) : ∀ (s : Line) (p : Nat),
    findSub sep s = some p → p + sep.length ≤ s.length := by
  intro s
  induction s with
  | nil =>
    intro p h
    by_cases hp : sep.isPrefixOf [] = true
    · simp only [findSub, hp, if_true, Option.some.injEq] at h
      subst h
      simpa using isPrefixOf_length_le sep [] hp
    · simp [findSub, hp] at h
  | cons b t ih =>
    intro p h
    by_cases hp : sep.isPrefixOf (b :: t) = true
    · simp only [findSub, hp, if_true, Option.some.injEq] at h
      subst h
      simpa using isPrefixOf_length_le sep (b :: t) hp
    · cases hq : findSub sep t with
      | none => simp [findSub, hp, hq] at h
      | some q =>
        simp [findSub, hp, hq] at h
        have := ih q hq
        simp only [List.length_cons]
        omega

theorem splitStep_rest_length (sep s tok rest : Line) (hsep : sep ≠ [])
    (h : splitStep sep s = some (tok, rest)) : rest.length < s.length := by
  unfold splitStep at h
  obtain ⟨pos, hpos, hfn⟩ := Option.map_eq_some'.mp h
  have hb := findSub_bound sep s pos hpos
  have hlen : 0 < sep.length := List.length_pos.mpr hsep
  have : rest = s.drop (pos + sep.length) := (congrArg Prod.snd hfn).symm
  subst this
  rw [List.length_drop]
  omega

theorem splitFuel_isSome (sep : Line) (hsep : sep ≠ []) :
    ∀ (fuel : Nat) (s : Line), s.length < fuel → (splitFuel sep fuel s).isSome = true := by
  intro fuel
  induction fuel with
  | zero => intro s h; omega
  | succ n ih =>
    intro s h
    cases hstep : splitStep sep s with
    | none => simp [splitFuel, hstep]
    | some pr =>
      obtain ⟨tok, rest⟩ := pr
      have hlt := splitStep_rest_length sep s tok rest hsep hstep
      have hrec := ih rest (by omega)
      simp only [splitFuel, hstep]
      cases hr : splitFuel sep n rest with
      | none => rw [hr] at hrec; simp at hrec
      | some cols => simp [hr]

theorem splitStep_nil_sep (s : Line) : splitStep [] s = some ([], s) := by
  have hfind : findSub [] s = some 0 := by
    cases s <;> simp [findSub, List.isPrefixOf]
  simp [splitStep, hfind]

theorem splitFuel_nil_sep : ∀ (fuel : Nat) (s : Line), splitFuel [] fuel s = none := by
  intro fuel
  induction fuel with
  | zero => intro s; rfl
  | succ n ih => intro s; simp [splitFuel, splitStep_nil_sep, ih]

/-! ## Helper lemmas: folded minima and maxima of the key columns -/

theorem foldl_max_init_le : ∀ (l : List Int) (b : Int), b ≤ l.foldl max b := by
  intro l
  induction l with
  | nil => intro b; exact le_refl b
  | cons x t ih => intro b; exact le_trans (le_max_left b x) (ih (max b x))

theorem le_foldl_max_of_mem {x : Int} : ∀ (l : List Int) (b : Int), x ∈ l → x ≤ l.foldl max b := by
  intro l
  induction l with
  | nil => intro b h; cases h
  | cons y t ih =>
    intro b h
    rcases List.mem_cons.mp h with rfl | h
    · exact le_trans (le_max_right b x) (foldl_max_init_le t (max b x))
    · exact ih (max b y) h

theorem foldl_min_le_init : ∀ (l : List Int) (b : Int), l.foldl min b ≤ b := by
  intro l
  induction l with
  | nil => intro b; exact le_refl b
  | cons x t ih => intro b; exact le_trans (ih (min b x)) (min_le_left b x)

theorem foldl_min_le_of_mem {x : Int} : ∀ (l : List Int) (b : Int), x ∈ l → l.foldl min b ≤ x := by
  intro l
  induction l with
  | nil => intro b h; cases h
  | cons y t ih =>
    intro b h
    rcases List.mem_cons.mp h with rfl | h
    · exact le_trans (foldl_min_le_init t (min b x)) (min_le_right b x)
    · exact ih (min b y) h

theorem keyMax_pos_of_min_pos (keys : List Int) (hne : keys ≠ []) (h : 0 < keyMin keys) :
    0 < keyMax keys := by
  obtain ⟨x, hx⟩ := List.exists_mem_of_ne_nil keys hne
  have h1 : keyMin keys ≤ x := foldl_min_le_of_mem keys intMax hx
  have h2 : x ≤ keyMax keys := le_foldl_max_of_mem keys 0 hx
  omega

/-! ## C3 and C4: the fingerprint policy -/

/-- C3: the fingerprint is the hash of the full line when the key spec's
maximum column is 0 or its minimum is ≤ 0; otherwise, the line split on the
field separator (empty fields preserved), the hash of the concatenated
requested columns in the user-given order (no delimiter) when enough fields
are present, else the hash of the full line.  Stated as equality between the
source fingerprint and the claim-structured `fingerprintSpec`. -/
theorem claim3 (keys : List Int) (sep l : Line) (hkeys : keys ≠ []) (_hsep : sep ≠ []) :
    fingerprint keys sep l = fingerprintSpec keys sep l := by
  unfold fingerprint fingerprintSpec
  by_cases hmin : keyMin keys ≤ 0
  · rw [if_pos (Or.inr hmin), if_pos (Or.inr hmin)]
  · have hminpos : 0 < keyMin keys := by omega
    have hmax : 0 < keyMax keys := keyMax_pos_of_min_pos keys hkeys hminpos
    rw [if_neg (by omega : ¬(keyMax keys = 0 ∨ keyMin keys ≤ 0))]
    by_cases hlen : keyMax keys ≤ ((split sep l).length : Int)
    · rw [if_pos hlen,
        if_neg (by omega : ¬(((split sep l).length : Int) < keyMax keys ∨ keyMin keys ≤ 0))]
    · rw [if_neg hlen,
        if_pos (Or.inl (by omega : ((split sep l).length : Int) < keyMax keys))]

/-- Witness for C3 at the key spec `-k 1`, tab separator, line `"a\tb"`. -/
theorem claim3_witness : fingerprint [1] [9] [97, 9, 98] = fingerprintSpec [1] [9] [97, 9, 98] :=
  claim3 [1] [9] [97, 9, 98] (by decide) (by decide)

/-- C4 as stated is false: with key spec `-k 2` (max = 2, min = 2 > 0) and
tab-separated line `"a\tb"` (exactly 2 fields), the code takes the
column branch and hashes column 2 (`"b"`), not the full line. -/
theorem claim4_counterexample :
    fingerprint [2] [9] [97, 9, 98] = MurmurHashNative [98]
    ∧ MurmurHashNative [98] ≠ MurmurHashNative [97, 9, 98] := by decide

/-- C4 amended: for a key spec with positive minimum, a line splitting into
exactly `max` fields is treated as sufficient — the fingerprint is the hash
of the concatenated requested columns, not the full-line fallback. -/
theorem claim4 (keys : List Int) (sep l : Line) (hmin : 0 < keyMin keys)
    (hlen : ((split sep l).length : Int) = keyMax keys) :
    fingerprint keys sep l = MurmurHashNative (selectCols keys (split sep l)) := by
  unfold fingerprint
  rw [if_neg (by omega : ¬(((split sep l).length : Int) < keyMax keys ∨ keyMin keys ≤ 0))]

/-- Witness for the amended C4 at key spec `-k 2`, line `"a\tb"`. -/
theorem claim4_witness :
    fingerprint [2] [9] [97, 9, 98] = MurmurHashNative (selectCols [2] (split [9] [97, 9, 98])) :=
  claim4 [2] [9] [97, 9, 98] (by decide) (by decide)

/-! ## C7: exit status propagation -/

/-- C7: on a normal child exit the wrapper's return value is the child's
exit code; on abnormal termination (a signal) it is the distinguished
non-zero value 256. -/
theorem claim7 (code sig : Nat) (hcode : code < 256) (hsig : sig % 128 ≠ 0) :
    wrapperExitCode (exitStatusOf code) = code
    ∧ wrapperExitCode (signalStatusOf sig) = 256
    ∧ wrapperExitCode (signalStatusOf sig) ≠ 0 := by
  have hn : code % 256 = code := Nat.mod_eq_of_lt hcode
  have h1 : code * 256 % 128 = 0 := by omega
  have h2 : code * 256 / 256 % 256 = code := by omega
  have h3 : signalStatusOf sig % 128 ≠ 0 := by
    unfold signalStatusOf
    omega
  refine ⟨?_, ?_, ?_⟩
  · unfold wrapperExitCode exitStatusOf WIFEXITED WEXITSTATUS
    rw [hn, h1]
    simpa using h2
  · unfold wrapperExitCode WIFEXITED
    simp [h3]
  · unfold wrapperExitCode WIFEXITED
    simp [h3]

/-- Witness for C7: child exit code 7, and a SIGKILL (9) termination. -/
theorem claim7_witness :
    wrapperExitCode (exitStatusOf 7) = 7
    ∧ wrapperExitCode (signalStatusOf 9) = 256
    ∧ wrapperExitCode (signalStatusOf 9) ≠ 0 :=
  claim7 7 9 (by decide) (by decide)

/-! ## C8: malformed `--key` -/

/-- C8 as stated is false: for the malformed key `"x"` (byte 120) the first
event of the run is the child spawn, so the fatal key parse does not happen
before the child is spawned. -/
theorem claim8_counterexample :
    parseKey [120] = none
    ∧ mainTrace [120] [[97]] = [RunEvent.spawnChild, RunEvent.fatalKeyParse]
    ∧ (mainTrace [120] [[97]]).head? = some RunEvent.spawnChild
    ∧ RunEvent.spawnChild ≠ RunEvent.fatalKeyParse := by decide

/-- C8 amended: a `--key` value with a token `std::stoi` rejects makes the
wrapper fail fatally in the Input worker before any input line is
processed — but after the child has been spawned. -/
theorem claim8 (key : Line) (lines : List Line) (h : parseKey key = none) :
    mainTrace key lines = [RunEvent.spawnChild, RunEvent.fatalKeyParse]
    ∧ ∀ l, RunEvent.readLine l ∉ mainTrace key lines := by
  constructor
  · simp [mainTrace, h]
  · intro l
    simp [mainTrace, h]

/-- Witness for the amended C8 at key `"x"`. -/
theorem claim8_witness :
    mainTrace [120] [[97], [98]] = [RunEvent.spawnChild, RunEvent.fatalKeyParse]
    ∧ ∀ l, RunEvent.readLine l ∉ mainTrace [120] [[97], [98]] :=
  claim8 [120] [[97], [98]] (by decide)

/-! ## C9: argument partitioning -/

/-- C9 as stated is false: the wrapper does not consume a `--` terminator.
For `cache -- echo hi` the child argv still begins with `"--"`, which is
what gets `execvp`ed, not `"echo"`. -/
theorem claim9_counterexample :
    childArgv ["cache", "--", "echo", "hi"] = ["--", "echo", "hi"]
    ∧ childArgv ["cache", "--", "echo", "hi"] ≠ ["echo", "hi"]
    ∧ (childArgv ["cache", "--", "echo", "hi"]).head? ≠ some "echo" := by decide

/-- C9 amended: without any `--` terminator, the wrapper consumes exactly
the recognized option/value pairs found by its pre-scan of `argv[1]` and
`argv[3]` (zero, one, or two pairs), and passes the remainder verbatim as
the child's argv, whose first element is the executable name used for the
exec.  The remainder's slots that the pre-scan inspects must not
themselves look like wrapper options. -/
theorem claim9 (prog o v o2 v2 : String) (rest : List String) :
    (rest ≠ [] → isCacheOpt (rest.getD 0 "") = false → isCacheOpt (rest.getD 2 "") = false →
        childArgv (prog :: rest) = rest ∧ wrapperArgv (prog :: rest) = [prog])
    ∧ (isCacheOpt o = true → isCacheOpt (rest.getD 0 "") = false →
        childArgv (prog :: o :: v :: rest) = rest
          ∧ wrapperArgv (prog :: o :: v :: rest) = [prog, o, v])
    ∧ (isCacheOpt o = true → isCacheOpt o2 = true →
        childArgv (prog :: o :: v :: o2 :: v2 :: rest) = rest
          ∧ wrapperArgv (prog :: o :: v :: o2 :: v2 :: rest) = [prog, o, v, o2, v2]) := by
  refine ⟨?_, ?_, ?_⟩
  · intro _ h0 h2
    have e1 : (prog :: rest).getD 1 "" = rest.getD 0 "" := by rfl
    have e3 : (prog :: rest).getD 3 "" = rest.getD 2 "" := by rfl
    have hskip : skipArgs (prog :: rest) = 1 := by
      unfold skipArgs
      rw [e1, e3, h0, h2]
      simp
    simp [childArgv, wrapperArgv, hskip]
  · intro ho h0
    have e1 : (prog :: o :: v :: rest).getD 1 "" = o := by rfl
    have e3 : (prog :: o :: v :: rest).getD 3 "" = rest.getD 0 "" := by rfl
    have hskip : skipArgs (prog :: o :: v :: rest) = 3 := by
      unfold skipArgs
      rw [e1, e3, ho, h0]
      simp
    simp [childArgv, wrapperArgv, hskip]
  · intro ho ho2
    have hlen : (prog :: o :: v :: o2 :: v2 :: rest).length > 3 := by
      simp only [List.length_cons]
      omega
    have e1 : (prog :: o :: v :: o2 :: v2 :: rest).getD 1 "" = o := by rfl
    have e3 : (prog :: o :: v :: o2 :: v2 :: rest).getD 3 "" = o2 := by rfl
    have hskip : skipArgs (prog :: o :: v :: o2 :: v2 :: rest) = 5 := by
      unfold skipArgs
      rw [e1, e3, ho, ho2]
      simp [hlen]
    simp [childArgv, wrapperArgv, hskip]

/-- Witness for the amended C9: no options, one pair, and two pairs, in
front of the child command `tr -d`. -/
theorem claim9_witness :
    (childArgv ["cache", "tr", "-d"] = ["tr", "-d"]
      ∧ wrapperArgv ["cache", "tr", "-d"] = ["cache"])
    ∧ (childArgv ["cache", "-k", "1", "tr", "-d"] = ["tr", "-d"]
      ∧ wrapperArgv ["cache", "-k", "1", "tr", "-d"] = ["cache", "-k", "1"])
    ∧ (childArgv ["cache", "-k", "1", "-t", ",", "tr", "-d"] = ["tr", "-d"]
      ∧ wrapperArgv ["cache", "-k", "1", "-t", ",", "tr", "-d"]
          = ["cache", "-k", "1", "-t", ","]) :=
  ⟨(claim9 "cache" "-k" "1" "-t" "," ["tr", "-d"]).1 (by decide) (by decide) (by decide),
    (claim9 "cache" "-k" "1" "-t" "," ["tr", "-d"]).2.1 (by decide) (by decide),
    (claim9 "cache" "-k" "1" "-t" "," ["tr", "-d"]).2.2 (by decide) (by decide)⟩

/-! ## C10: termination of the field-splitting loop -/

/-- C10: with a non-empty field separator the splitting loop finishes within
`length + 1` iterations on every line; with the empty separator (reachable
via `-t ''`) `find` returns 0 and `erase` removes nothing, so every fuel
bound is exhausted — the loop never terminates. -/
theorem claim10 (sep : Line) (hsep : sep ≠ []) :
    (∀ s : Line, (splitFuel sep (s.length + 1) s).isSome = true)
    ∧ (∀ s : Line, splitStep [] s = some ([], s))
    ∧ (∀ (fuel : Nat) (s : Line), splitFuel [] fuel s = none) :=
  ⟨fun s => splitFuel_isSome sep hsep (s.length + 1) s (Nat.lt_succ_self _),
    splitStep_nil_sep, splitFuel_nil_sep⟩

/-- Witness for C10 with the default tab separator on the line `"a\tb"`. -/
theorem claim10_witness : (splitFuel [9] ([97, 9, 98].length + 1) [97, 9, 98]).isSome = true :=
  (claim10 [9] (by decide)).1 [97, 9, 98]

/-! ## Helper lemmas: `List.find?` over appended lists -/

theorem find_append_some {α : Type} (p : α → Bool) :
    ∀ (l1 l2 : List α) (a : α), l1.find? p = some a → (l1 ++ l2).find? p = some a := by
  intro l1
  induction l1 with
  | nil => intro l2 a h; simp [List.find?] at h
  | cons x t ih =>
    intro l2 a h
    rw [List.cons_append]
    by_cases hx : p x = true
    · rw [List.find?_cons_of_pos _ hx] at h
      rw [List.find?_cons_of_pos _ hx]
      exact h
    · rw [List.find?_cons_of_neg _ hx] at h
      rw [List.find?_cons_of_neg _ hx]
      exact ih l2 a h

theorem find_append_none {α : Type} (p : α → Bool) :
    ∀ (l1 l2 : List α), l1.find? p = none → (l1 ++ l2).find? p = l2.find? p := by
  intro l1
  induction l1 with
  | nil => intro l2 _; rfl
  | cons x t ih =>
    intro l2 h
    by_cases hx : p x = true
    · rw [List.find?_cons_of_pos _ hx] at h; cases h
    · rw [List.find?_cons_of_neg _ hx] at h
      rw [List.cons_append, List.find?_cons_of_neg _ hx]
      exact ih l2 h

/-! ## Helper lemmas: the reference cache function -/

theorem cacheSpec_length (fp : Line → Nat) (child : Line → Line) :
    ∀ (ls : List Line) (m : Nat → Option Line), (cacheSpec fp child ls m).length = ls.length := by
  intro ls
  induction ls with
  | nil => intro m; rfl
  | cons l t ih =>
    intro m
    cases hm : m (fp l) with
    | some v => simp [cacheSpec, hm, ih]
    | none => simp [cacheSpec, hm, ih]

theorem mOf_nil (fp : Line → Nat) (child : Line → Line) :
    mOf fp child [] = fun _ => none := by
  funext g
  rfl

theorem mOf_snoc_found (fp : Line → Nat) (child : Line → Line) (hs : List Line) (l a : Line)
    (hf : hs.find? (fun x => fp x == fp l) = some a) :
    mOf fp child (hs ++ [l]) = mOf fp child hs := by
  funext g
  unfold mOf
  cases hg : hs.find? (fun x => fp x == g) with
  | some b => rw [find_append_some _ _ _ _ hg]
  | none =>
    rw [find_append_none _ _ _ hg]
    have hne : (fp l == g) = false := by
      apply beq_eq_false_iff_ne.mpr
      intro he
      rw [← he] at hg
      rw [hg] at hf
      cases hf
    simp [List.find?, hne]

theorem mOf_snoc_none (fp : Line → Nat) (child : Line → Line) (hs : List Line) (l : Line)
    (hf : hs.find? (fun x => fp x == fp l) = none) :
    (fun g => if g == fp l then some (child l) else mOf fp child hs g)
      = mOf fp child (hs ++ [l]) := by
  funext g
  by_cases hg : g = fp l
  · subst hg
    rw [if_pos (by simp)]
    unfold mOf
    rw [find_append_none _ _ _ hf]
    simp [List.find?]
  · rw [if_neg (by simp [hg] : ¬((g == fp l) = true))]
    unfold mOf
    cases hh : hs.find? (fun x => fp x == g) with
    | some b => rw [find_append_some _ _ _ _ hh]
    | none =>
      rw [find_append_none _ _ _ hh]
      have hne : (fp l == g) = false := beq_eq_false_iff_ne.mpr (fun he => hg he.symm)
      simp [List.find?, hne]

/-! ## Helper lemmas: the two workers compose to the reference function -/

theorem pipelineAux (fp : Line → Nat) (child : Line → Line) :
    ∀ (ls : List Line) (seen : List Nat) (m : Nat → Option Line),
      (∀ f, f ∈ seen ↔ (m f).isSome = true) →
      ∃ tr,
        outputRun (queueOf (inputRun fp ls seen)) ((sentOf (inputRun fp ls seen)).map child) m
          = some tr
        ∧ emitsOf tr = (cacheSpec fp child ls m).map (fun v => v ++ [10]) := by
  intro ls
  induction ls with
  | nil =>
    intro seen m hm
    exact ⟨[], rfl, rfl⟩
  | cons l t ih =>
    intro seen m hm
    by_cases hmem : fp l ∈ seen
    · have hsome : (m (fp l)).isSome = true := (hm (fp l)).mp hmem
      obtain ⟨v, hv⟩ := Option.isSome_iff_exists.mp hsome
      obtain ⟨tr, htr, hemits⟩ := ih seen m hm
      refine ⟨OutEvent.emit (v ++ [10]) :: tr, ?_, ?_⟩
      · simp only [inputRun, if_pos hmem, queueOf, sentOf]
        simp only [outputRun, hv]
        rw [htr]
        rfl
      · simp only [emitsOf, hemits, cacheSpec, hv, List.map_cons]
    · have hnone : m (fp l) = none := by
        cases hmf : m (fp l) with
        | none => rfl
        | some v =>
          exfalso
          exact hmem ((hm (fp l)).mpr (by simp [hmf]))
      have hiff : ∀ g, g ∈ fp l :: seen ↔
          (if g == fp l then some (child l) else m g).isSome = true := by
        intro g
        by_cases hg : g = fp l
        · subst hg; simp
        · rw [if_neg (by simp [hg] : ¬((g == fp l) = true))]
          simp [List.mem_cons, hg, hm g]
      obtain ⟨tr, htr, hemits⟩ :=
        ih (fp l :: seen) (fun g => if g == fp l then some (child l) else m g) hiff
      refine ⟨OutEvent.readChild (child l) :: OutEvent.install (fp l) (child l) ::
        OutEvent.emit (child l ++ [10]) :: tr, ?_, ?_⟩
      · simp only [inputRun, if_neg hmem, queueOf, sentOf, List.map_cons]
        simp only [outputRun, hnone]
        rw [htr]
        rfl
      · simp only [emitsOf, hemits, cacheSpec, hnone, List.map_cons]

/-- Output position `i` of the reference pass carries the child's answer for
the first line of history-plus-input with the fingerprint of line `i`. -/
theorem cacheSpec_mOf (fp : Line → Nat) (child : Line → Line) :
    ∀ (ls hs : List Line) (i : Nat) (li : Line), ls[i]? = some li →
      ∃ l0, (hs ++ ls).find? (fun x => fp x == fp li) = some l0
        ∧ (cacheSpec fp child ls (mOf fp child hs))[i]? = some (child l0) := by
  intro ls
  induction ls with
  | nil => intro hs i li h; simp at h
  | cons l t ih =>
    intro hs i li h
    cases hf : hs.find? (fun x => fp x == fp l) with
    | some a =>
      have hm : mOf fp child hs (fp l) = some (child a) := by
        unfold mOf; rw [hf]; rfl
      cases i with
      | zero =>
        have hl : l = li := by simpa using h
        subst hl
        refine ⟨a, find_append_some _ _ _ _ hf, ?_⟩
        simp [cacheSpec, hm]
      | succ j =>
        have hj : t[j]? = some li := by simpa using h
        obtain ⟨l0, hfind, hval⟩ := ih (hs ++ [l]) j li hj
        refine ⟨l0, ?_, ?_⟩
        · have he : hs ++ [l] ++ t = hs ++ l :: t := by simp
          rwa [he] at hfind
        · have hms := mOf_snoc_found fp child hs l a hf
          simp only [cacheSpec, hm]
          rw [List.getElem?_cons_succ]
          rw [hms] at hval
          exact hval
    | none =>
      have hm : mOf fp child hs (fp l) = none := by
        unfold mOf; rw [hf]; rfl
      cases i with
      | zero =>
        have hl : l = li := by simpa using h
        subst hl
        refine ⟨l, ?_, ?_⟩
        · rw [find_append_none _ _ _ hf]
          exact List.find?_cons_of_pos _ (by simp)
        · simp [cacheSpec, hm]
      | succ j =>
        have hj : t[j]? = some li := by simpa using h
        obtain ⟨l0, hfind, hval⟩ := ih (hs ++ [l]) j li hj
        refine ⟨l0, ?_, ?_⟩
        · have he : hs ++ [l] ++ t = hs ++ l :: t := by simp
          rwa [he] at hfind
        · have hms := mOf_snoc_none fp child hs l hf
          simp only [cacheSpec, hm]
          rw [List.getElem?_cons_succ]
          rw [hms]
          exact hval

/-! ## Helper lemmas: the Input worker's trace -/

theorem queueOf_inputRun (fp : Line → Nat) :
    ∀ (ls : List Line) (seen : List Nat), queueOf (inputRun fp ls seen) = ls.map fp := by
  intro ls
  induction ls with
  | nil => intro seen; rfl
  | cons l t ih =>
    intro seen
    by_cases hmem : fp l ∈ seen
    · simp only [inputRun, if_pos hmem, queueOf, ih, List.map_cons]
    · simp only [inputRun, if_neg hmem, queueOf, ih, List.map_cons]

theorem inputRun_shape (fp : Line → Nat) :
    ∀ (ls : List Line) (seen : List Nat),
      ∃ body, inputRun fp ls seen = body ++ [InEvent.closeStdin, InEvent.sentinel]
        ∧ ∀ e ∈ body, e ≠ InEvent.closeStdin ∧ e ≠ InEvent.sentinel := by
  intro ls
  induction ls with
  | nil => intro seen; exact ⟨[], rfl, by simp⟩
  | cons l t ih =>
    intro seen
    by_cases hmem : fp l ∈ seen
    · obtain ⟨body, hb, he⟩ := ih seen
      refine ⟨InEvent.enq (fp l) :: body, ?_, ?_⟩
      · simp only [inputRun, if_pos hmem, hb, List.cons_append]
      · intro e hme
        rcases List.mem_cons.mp hme with rfl | hme
        · exact ⟨by simp, by simp⟩
        · exact he e hme
    · obtain ⟨body, hb, he⟩ := ih (fp l :: seen)
      refine ⟨InEvent.send l :: InEvent.enq (fp l) :: body, ?_, ?_⟩
      · simp only [inputRun, if_neg hmem, hb, List.cons_append]
      · intro e hme
        rcases List.mem_cons.mp hme with rfl | hme
        · exact ⟨by simp, by simp⟩
        · rcases List.mem_cons.mp hme with rfl | hme
          · exact ⟨by simp, by simp⟩
          · exact he e hme

/-- Dropping a line whose fingerprint is already covered (by the seen set or
by an earlier line) does not change what is forwarded to the child. -/
theorem sentOf_skip_dup (fp : Line → Nat) :
    ∀ (pre : List Line) (l : Line) (post : List Line) (seen : List Nat),
      (fp l ∈ seen ∨ fp l ∈ pre.map fp) →
      sentOf (inputRun fp (pre ++ l :: post) seen)
        = sentOf (inputRun fp (pre ++ post) seen) := by
  intro pre
  induction pre with
  | nil =>
    intro l post seen h
    rcases h with h | h
    · simp only [List.nil_append, inputRun, if_pos h, sentOf]
    · simp at h
  | cons p t ih =>
    intro l post seen h
    have hnext : ∀ s : List Nat, fp p ∈ s → (∀ x, x ∈ seen → x ∈ s) →
        (fp l ∈ s ∨ fp l ∈ t.map fp) := by
      intro s hps hsub
      rcases h with hin | hin
      · exact Or.inl (hsub _ hin)
      · have hin' : fp l ∈ fp p :: t.map fp := by rw [List.map_cons] at hin; exact hin
        rcases List.mem_cons.mp hin' with he | hin2
        · exact Or.inl (by rw [he]; exact hps)
        · exact Or.inr hin2
    by_cases hp : fp p ∈ seen
    · simp only [List.cons_append, inputRun, if_pos hp, sentOf]
      exact ih l post seen (hnext seen hp (fun x hx => hx))
    · simp only [List.cons_append, inputRun, if_neg hp, sentOf]
      exact congrArg (List.cons p)
        (ih l post (fp p :: seen)
          (hnext (fp p :: seen) (List.mem_cons_self _ _) (fun x hx => List.mem_cons_of_mem _ hx)))

/-! ## C5: the Input worker's queue discipline -/

/-- C5: the Input worker enqueues exactly one handle per input line, in
input order (the queue projection of its trace is `lines.map fp`); the
trace ends with closing the child's stdin immediately followed by the one
sentinel, and no close/sentinel event occurs earlier. -/
theorem claim5 (fp : Line → Nat) (lines : List Line) :
    ∃ body, inputRun fp lines [] = body ++ [InEvent.closeStdin, InEvent.sentinel]
      ∧ (∀ e ∈ body, e ≠ InEvent.closeStdin ∧ e ≠ InEvent.sentinel)
      ∧ queueOf (inputRun fp lines []) = lines.map fp := by
  obtain ⟨body, hb, he⟩ := inputRun_shape fp lines []
  exact ⟨body, hb, he, queueOf_inputRun fp lines []⟩

/-! ## C1: output count and order -/

/-- C1 as stated is false: with key spec `-k 1` the lines `"a\tx"` and
`"a\ty"` share a fingerprint, so with an identity child the second output
line is the cached `"a\tx"`, not the child's output for `"a\ty"`. -/
theorem claim1_counterexample :
    wrapperOutput [1] [9] (fun l => l) [[97, 9, 120], [97, 9, 121]]
      = some [[97, 9, 120, 10], [97, 9, 120, 10]]
    ∧ ([[97, 9, 120, 10], [97, 9, 120, 10]] : List Line)[1]?
        ≠ some ((fun l => l) [97, 9, 121] ++ [10]) := by decide

/-- C1 amended: for every input of N lines and every child obeying the
one-line-in/one-line-out contract, the wrapper emits exactly N
newline-terminated lines, and the i-th output line is the child's output
for the first input line whose fingerprint equals the i-th line's
fingerprint (which is the i-th line itself whenever its fingerprint is
novel). -/
theorem claim1 (keys : List Int) (sep : Line) (child : Line → Line) (lines : List Line)
    (_hsep : sep ≠ []) :
    ∃ outs, wrapperOutput keys sep child lines = some outs
      ∧ outs.length = lines.length
      ∧ ∀ (i : Nat) (li : Line), lines[i]? = some li →
          ∃ l0,
            lines.find? (fun x => fingerprint keys sep x == fingerprint keys sep li) = some l0
            ∧ outs[i]? = some (child l0 ++ [10]) := by
  obtain ⟨tr, htr, hemits⟩ := pipelineAux (fingerprint keys sep) child lines [] (fun _ => none)
    (by intro f; simp)
  have hm0 : (fun _ => (none : Option Line)) = mOf (fingerprint keys sep) child [] := by
    funext g
    rfl
  refine ⟨emitsOf tr, ?_, ?_, ?_⟩
  · simp only [wrapperOutput, wrapperRun]
    rw [htr]
    rfl
  · rw [hemits, List.length_map, cacheSpec_length]
  · intro i li hli
    obtain ⟨l0, hfind, hval⟩ := cacheSpec_mOf (fingerprint keys sep) child lines [] i li hli
    refine ⟨l0, by simpa using hfind, ?_⟩
    rw [hemits, hm0, List.getElem?_map, hval]
    rfl

/-- Witness for the amended C1: default key spec, identity child, input
`"a"`, `"b"`, `"a"`. -/
theorem claim1_witness :
    ∃ outs, wrapperOutput [-1] [9] (fun l => l) [[97], [98], [97]] = some outs
      ∧ outs.length = [[97], [98], [97]].length
      ∧ ∀ (i : Nat) (li : Line), [[97], [98], [97]][i]? = some li →
          ∃ l0,
            [[97], [98], [97]].find?
                (fun x => fingerprint [-1] [9] x == fingerprint [-1] [9] li) = some l0
            ∧ outs[i]? = some ((fun l => l) l0 ++ [10]) :=
  claim1 [-1] [9] (fun l => l) [[97], [98], [97]] (by decide)

/-! ## C2: cache-hit behaviour -/

/-- C2 as stated is false in its "only L_a is forwarded" part: with key
spec `-k 1` on `"a\tx"`, `"a\ty"`, `"a\tz"`, pick L_a = `"a\ty"` and
L_b = `"a\tz"` (same fingerprint, L_a earlier): the child receives only
`"a\tx"`, so L_a itself is not forwarded either. -/
theorem claim2_counterexample :
    fingerprint [1] [9] [97, 9, 121] = fingerprint [1] [9] [97, 9, 122]
    ∧ ([[97, 9, 120], [97, 9, 121], [97, 9, 122]] : List Line)[1]? = some [97, 9, 121]
    ∧ sentOf (inputRun (fingerprint [1] [9]) [[97, 9, 120], [97, 9, 121], [97, 9, 122]] [])
        = [[97, 9, 120]]
    ∧ [97, 9, 121] ∉ [([97, 9, 120] : Line)] := by decide

/-- C2 amended: for two positions a < b with equal fingerprints, the
wrapper emits identical output lines at both positions — namely the
child's answer for the first input line with that fingerprint (L_a itself
when no earlier line shares it) — and L_b is never forwarded to the
child: erasing L_b from the input leaves the forwarded stream unchanged. -/
theorem claim2 (keys : List Int) (sep : Line) (child : Line → Line) (lines : List Line)
    (a b : Nat) (la lb : Line) (_hsep : sep ≠ []) (hab : a < b)
    (ha : lines[a]? = some la) (hb : lines[b]? = some lb)
    (hfp : fingerprint keys sep la = fingerprint keys sep lb) :
    ∃ outs l0, wrapperOutput keys sep child lines = some outs
      ∧ outs[a]? = outs[b]?
      ∧ lines.find? (fun x => fingerprint keys sep x == fingerprint keys sep la) = some l0
      ∧ outs[b]? = some (child l0 ++ [10])
      ∧ sentOf (inputRun (fingerprint keys sep) lines [])
          = sentOf (inputRun (fingerprint keys sep) (lines.eraseIdx b) []) := by
  obtain ⟨tr, htr, hemits⟩ := pipelineAux (fingerprint keys sep) child lines [] (fun _ => none)
    (by intro f; simp)
  have hm0 : (fun _ => (none : Option Line)) = mOf (fingerprint keys sep) child [] := by
    funext g
    rfl
  obtain ⟨l0a, hfa, hva⟩ := cacheSpec_mOf (fingerprint keys sep) child lines [] a la ha
  obtain ⟨l0b, hfb, hvb⟩ := cacheSpec_mOf (fingerprint keys sep) child lines [] b lb hb
  have hpred : (fun x => fingerprint keys sep x == fingerprint keys sep la)
      = (fun x => fingerprint keys sep x == fingerprint keys sep lb) := by
    funext x
    rw [hfp]
  have hl0 : l0a = l0b := by
    rw [List.nil_append] at hfa hfb
    rw [hpred] at hfa
    rw [hfa] at hfb
    exact (Option.some.injEq _ _).mp hfb
  obtain ⟨hblen, hbval⟩ := List.getElem?_eq_some_iff.mp hb
  have hsplit : lines = lines.take b ++ lb :: lines.drop (b + 1) := by
    conv_lhs => rw [← List.take_append_drop b lines]
    rw [List.drop_eq_getElem_cons hblen, hbval]
  have hmem : fingerprint keys sep lb ∈ (lines.take b).map (fingerprint keys sep) := by
    have hta : (lines.take b)[a]? = some la := by
      rw [List.getElem?_take_of_lt hab]
      exact ha
    have : la ∈ lines.take b := List.getElem?_mem hta
    rw [← hfp]
    exact List.mem_map_of_mem _ this
  have herase : sentOf (inputRun (fingerprint keys sep) lines [])
      = sentOf (inputRun (fingerprint keys sep) (lines.eraseIdx b) []) := by
    rw [List.eraseIdx_eq_take_drop_succ]
    conv_lhs => rw [hsplit]
    exact sentOf_skip_dup (fingerprint keys sep) (lines.take b) lb (lines.drop (b + 1)) []
      (Or.inr hmem)
  refine ⟨emitsOf tr, l0a, ?_, ?_, by simpa using hfa, ?_, herase⟩
  · simp only [wrapperOutput, wrapperRun]
    rw [htr]
    rfl
  · rw [hemits, hm0, List.getElem?_map, List.getElem?_map, hva, hvb, hl0]
  · rw [hemits, hm0, List.getElem?_map, hvb, hl0]
    rfl

/-- Witness for the amended C2: key spec `-k 1`, identity child, lines
`"a\tx"` and `"a\ty"` at positions 0 and 1. -/
theorem claim2_witness :
    ∃ outs l0,
      wrapperOutput [1] [9] (fun l => l) [[97, 9, 120], [97, 9, 121]] = some outs
      ∧ outs[0]? = outs[1]?
      ∧ [[97, 9, 120], [97, 9, 121]].find?
          (fun x => fingerprint [1] [9] x == fingerprint [1] [9] [97, 9, 120]) = some l0
      ∧ outs[1]? = some ((fun l => l) l0 ++ [10])
      ∧ sentOf (inputRun (fingerprint [1] [9]) [[97, 9, 120], [97, 9, 121]] [])
          = sentOf (inputRun (fingerprint [1] [9])
              ([[97, 9, 120], [97, 9, 121]].eraseIdx 1) []) :=
  claim2 [1] [9] (fun l => l) [[97, 9, 120], [97, 9, 121]] 0 1 [97, 9, 120] [97, 9, 121]
    (by decide) (by decide) (by decide) (by decide) (by decide)

/-! ## C6: the Output worker's per-handle behaviour -/

/-- C6: for every successful Output run — one line of child stdout read
per absent handle, in order (`readsOf` is exactly the consumed prefix of
the child's stdout and equals the installed values); each slot undergoes
at most one absent-to-present transition (installed fingerprints are
distinct and were absent in the starting cache); exactly one
newline-terminated line is emitted per dequeued handle; and the worker
exits at the sentinel, reading nothing more. -/
theorem claim6 (q : List Nat) (rs : List Line) (c : Nat → Option Line) (tr : List OutEvent)
    (h : outputRun q rs c = some tr) :
    (emitsOf tr).length = q.length
    ∧ (∀ bs ∈ emitsOf tr, ∃ v, bs = v ++ [10])
    ∧ readsOf tr = (installsOf tr).map Prod.snd
    ∧ readsOf tr = rs.take (readsOf tr).length
    ∧ ((installsOf tr).map Prod.fst).Nodup
    ∧ (∀ p ∈ installsOf tr, c p.1 = none)
    ∧ outputRun [] rs c = some [] := by
  induction q generalizing rs c tr with
  | nil =>
    have h' : some ([] : List OutEvent) = some tr := h
    injection h' with h''
    subst h''
    exact ⟨rfl, by simp [emitsOf], rfl, rfl, List.nodup_nil, by simp [installsOf], rfl⟩
  | cons f q ih =>
    cases hc : c f with
    | some v =>
      simp only [outputRun, hc] at h
      obtain ⟨tr', htr', rfl⟩ := Option.map_eq_some'.mp h
      obtain ⟨e1, e2, e3, e4, e5, e6, _⟩ := ih rs c tr' htr'
      refine ⟨?_, ?_, ?_, ?_, ?_, ?_, rfl⟩
      · simp only [emitsOf, List.length_cons, e1, List.length_cons]
      · intro bs hbs
        rcases List.mem_cons.mp (by simpa only [emitsOf] using hbs) with rfl | hbs'
        · exact ⟨v, rfl⟩
        · exact e2 bs hbs'
      · simpa only [readsOf, installsOf] using e3
      · simpa only [readsOf] using e4
      · simpa only [installsOf] using e5
      · intro p hp
        exact e6 p (by simpa only [installsOf] using hp)
    | none =>
      cases rs with
      | nil => simp [outputRun, hc] at h
      | cons r rs' =>
        simp only [outputRun, hc] at h
        obtain ⟨tr', htr', rfl⟩ := Option.map_eq_some'.mp h
        obtain ⟨e1, e2, e3, e4, e5, e6, _⟩ := ih rs' (fun g => if g == f then some r else c g) tr' htr'
        refine ⟨?_, ?_, ?_, ?_, ?_, ?_, rfl⟩
        · simp only [emitsOf, readsOf, installsOf, List.length_cons, e1]
        · intro bs hbs
          rcases List.mem_cons.mp (by simpa only [emitsOf] using hbs) with rfl | hbs'
          · exact ⟨r, rfl⟩
          · exact e2 bs hbs'
        · simp only [readsOf, installsOf, List.map_cons]
          exact congrArg (List.cons r) e3
        · simp only [readsOf, List.length_cons, List.take_succ_cons]
          exact congrArg (List.cons r) e4
        · simp only [installsOf, List.map_cons]
          apply List.nodup_cons.mpr
          refine ⟨?_, e5⟩
          intro hmem
          obtain ⟨p, hp, hp1⟩ := List.mem_map.mp hmem
          have h6 := e6 p hp
          rw [hp1] at h6
          simp at h6
        · intro p hp
          have hp' : p ∈ (f, r) :: installsOf tr' := by simpa only [installsOf] using hp
          rcases List.mem_cons.mp hp' with rfl | hp2
          · exact hc
          · have h6 := e6 p hp2
            by_cases hpf : p.1 = f
            · rw [hpf] at h6
              simp at h6
            · simpa [hpf] using h6

/-- Witness for C6: two handles to the same fingerprint 5 against the
empty cache, child stdout `"a"`. -/
theorem claim6_witness :
    (emitsOf [OutEvent.readChild [97], OutEvent.install 5 [97],
        OutEvent.emit [97, 10], OutEvent.emit [97, 10]]).length = [5, 5].length
    ∧ (∀ bs ∈ emitsOf [OutEvent.readChild [97], OutEvent.install 5 [97],
        OutEvent.emit [97, 10], OutEvent.emit [97, 10]], ∃ v, bs = v ++ [10])
    ∧ readsOf [OutEvent.readChild [97], OutEvent.install 5 [97],
        OutEvent.emit [97, 10], OutEvent.emit [97, 10]]
      = (installsOf [OutEvent.readChild [97], OutEvent.install 5 [97],
        OutEvent.emit [97, 10], OutEvent.emit [97, 10]]).map Prod.snd
    ∧ readsOf [OutEvent.readChild [97], OutEvent.install 5 [97],
        OutEvent.emit [97, 10], OutEvent.emit [97, 10]]
      = [[97]].take (readsOf [OutEvent.readChild [97], OutEvent.install 5 [97],
        OutEvent.emit [97, 10], OutEvent.emit [97, 10]]).length
    ∧ ((installsOf [OutEvent.readChild [97], OutEvent.install 5 [97],
        OutEvent.emit [97, 10], OutEvent.emit [97, 10]]).map Prod.fst).Nodup
    ∧ (∀ p ∈ installsOf [OutEvent.readChild [97], OutEvent.install 5 [97],
        OutEvent.emit [97, 10], OutEvent.emit [97, 10]],
        (fun _ => (none : Option Line)) p.1 = none)
    ∧ outputRun [] [[97]] (fun _ => (none : Option Line)) = some [] :=
  claim6 [5, 5] [[97]] (fun _ => none)
    [OutEvent.readChild [97], OutEvent.install 5 [97],
      OutEvent.emit [97, 10], OutEvent.emit [97, 10]] (by rfl)

end Preprocess
